import Mathlib

/-!
# SpeakInsights v3 — verification of the post-processing pipeline

Shallow embedding, in Lean 4, of the core post-meeting pipeline of the
SpeakInsights v3 backend:

* `backend/app/core/sentiment_service.py`  — `SentimentService._compound_to_label`
* `backend/app/core/post_processing.py`    — `PostProcessingPipeline`
  (`process_meeting`, `_step_transcribe_and_sentiment`, `_step_merge_transcript`,
  `chunk_transcript`, `_step_extract_tasks`)
* `backend/app/core/ollama_client.py`      — `OllamaClient.summarize_transcript`

Modelling conventions:
* Python `str` is modelled as `List Char` (a sequence of code points), named
  `PyStr`.  Python built-ins (`str.strip`, `str.split`, slicing) are modelled
  by executable Lean functions with the documented Python semantics.
* Python `float` time stamps and sentiment scores are modelled as `ℚ`:
  the code only compares, floor-divides and takes remainders of them, and at
  the thresholds in the claims these operations agree exactly with the IEEE
  doubles used at runtime.
* Python `sorted(_, key=...)` is a stable sort; it is modelled by the (stable)
  `List.mergeSort` of the Lean core library.
* A Python `set` has an unspecified iteration order.  Wherever the code
  iterates over a set (`list({...})` in `chunk_transcript`), the embedding is
  parameterised by an enumeration function `setList` constrained only by
  `IsSetList` (duplicate-free, same membership), so theorems quantify over
  every order the runtime could produce.
* Database writes and external service calls are modelled as pure data flow:
  a "persisted row" is a record in the returned list, and fallible external
  calls are inputs of type `Except Unit _` supplied by the environment.
-/

namespace SpeakInsights

/-- Python `str`, modelled as its sequence of code points. -/
abbrev PyStr := List Char

/-- The ASCII whitespace characters recognised by Python's `str.strip()` /
`str.split()` (the transcripts at hand contain no exotic Unicode spaces). -/
def isPySpace (c : Char) : Bool :=
  c = ' ' || c = '\t' || c = '\n' || c = '\r' || c = '\x0b' || c = '\x0c'

/-- Remove trailing whitespace (the right half of Python `str.strip()`). -/
def rtrimWs : PyStr → PyStr
  | [] => []
  | c :: cs =>
    let r := rtrimWs cs
    if r = [] then (if isPySpace c then [] else [c]) else c :: r

/-- Python `str.strip()`: drop leading and trailing whitespace. -/
def pyStrip (l : PyStr) : PyStr := rtrimWs (l.dropWhile isPySpace)

/-- Worker for `pySplitWs`, structurally recursive on a fuel bound so that
concrete splits evaluate inside the kernel. -/
def pySplitWsGo : Nat → PyStr → List PyStr
  | 0, _ => []
  | fuel + 1, l =>
    match l.dropWhile isPySpace with
    | [] => []
    | c :: rest =>
      (c :: rest.takeWhile (fun x => !isPySpace x)) ::
        pySplitWsGo fuel (rest.dropWhile (fun x => !isPySpace x))

/-- Python `str.split()` with no arguments: split on runs of whitespace,
returning only the non-empty words.  Every produced word consumes at least
one character of the remaining input, so `l.length + 1` units of fuel always
suffice in `pySplitWsGo`. -/
def pySplitWs (l : PyStr) : List PyStr := pySplitWsGo (l.length + 1) l

/-! ## SentimentService (`sentiment_service.py`, lines 25–39) -/

/-- `SentimentService._compound_to_label`: map a VADER compound score to a
human-readable label. -/
def compound_to_label (compound : ℚ) : String :=
  if compound ≥ 0.05 then "positive"
  else if compound ≤ -0.05 then "negative"
  else "neutral"

/-! ## Task extraction (`post_processing.py`, `_step_extract_tasks`,
lines 452–489) -/

/-- A calendar date, the result of `datetime.date.fromisoformat`. -/
structure PyDate where
  year : Nat
  month : Nat
  day : Nat
deriving DecidableEq, Repr

/-- One item of the JSON array returned by `OllamaClient.extract_tasks`.
Each field is `Option`al because the model may omit it or emit `null`
(`dict.get` returns `None` in both cases). -/
structure RawTask where
  title : Option String
  assignee : Option String
  due_date : Option String
  priority : Option String
  context : Option String
deriving DecidableEq, Repr

/-- A persisted `Task` row (the fields set by `_step_extract_tasks`;
`id`/`meeting_id` are fresh identifiers and are not modelled). -/
structure TaskRow where
  title : String
  description : String
  assignee : Option String
  due_date : Option PyDate
  priority : String
  status : String
deriving DecidableEq, Repr

/-- The allowed priority values checked at `post_processing.py:474`. -/
def allowedPriorities : List String := ["low", "medium", "high", "critical"]

/-- The `Task` row built for one extracted item (`post_processing.py:464–486`).
`parseIso` models `datetime.date.fromisoformat`: `none` is a raised
`ValueError`/`TypeError`, which the code catches and turns into a null date.
A missing/`null`/empty-string due date is falsy in Python, so the parse is
never attempted for it. -/
def taskRow (parseIso : String → Option PyDate) (t : RawTask) : TaskRow :=
  let due : Option PyDate :=
    match t.due_date with
    | none => none
    | some s => if s = "" then none else parseIso s
  let p := t.priority.getD "medium"
  { title := t.title.getD "Untitled Task"
    description := t.context.getD ""
    assignee := t.assignee
    due_date := due
    priority := if p ∈ allowedPriorities then p else "medium"
    status := "pending" }

/-- `_step_extract_tasks`' persistence loop: one `Task` row is added per
extracted item, in order. -/
def extract_tasks_rows (parseIso : String → Option PyDate)
    (tasks : List RawTask) : List TaskRow :=
  tasks.map (taskRow parseIso)

/-! ## Transcript merging (`post_processing.py`, `_step_merge_transcript`,
lines 250–282) -/

/-- An in-memory segment dict as accumulated by step 1 and consumed by the
merge and chunking steps (keys `speaker`, `text`, `start`, `end`; the Python
key `end` is named `stop` here because `end` is a Lean keyword). -/
structure Seg where
  speaker : PyStr
  text : PyStr
  start : ℚ
  stop : ℚ
deriving DecidableEq, Repr, Inhabited

/-- The comparison used by `sorted(segments, key=lambda s: s.get("start", 0.0))`.
Python's `sorted` is stable; it is modelled by the stable `List.mergeSort`. -/
def segLE (a b : Seg) : Bool := decide (a.start ≤ b.start)

/-- Python `//` on non-negative floats: `a // b = ⌊a / b⌋`. -/
def pyFloorDivQ (a b : ℚ) : ℚ := ⌊a / b⌋

/-- Python `%` on floats (for a positive divisor): `a % b = a - b * ⌊a / b⌋`. -/
def pyModQ (a b : ℚ) : ℚ := a - b * ⌊a / b⌋

/-- Python `int(_)`: truncation towards zero. -/
def pyIntOfQ (q : ℚ) : ℤ := if q < 0 then ⌈q⌉ else ⌊q⌋

/-- Python's `f"{n:02d}"`: decimal rendering left-padded with `0` to width 2
(the sign, if any, counts towards the width). -/
def pad2 (n : ℤ) : PyStr :=
  let s := (toString n).toList
  if s.length < 2 then '0' :: s else s

/-- One line `[MM:SS] Speaker: text` of the merged transcript
(`post_processing.py:278–280`). -/
def renderLine (seg : Seg) : PyStr :=
  let minutes := pyIntOfQ (pyFloorDivQ seg.start 60)
  let seconds := pyIntOfQ (pyModQ seg.start 60)
  '[' :: (pad2 minutes ++ ':' :: pad2 seconds ++ ']' :: ' ' ::
    (seg.speaker ++ ':' :: ' ' :: seg.text))

/-- Lexicographic comparison of Python strings by code point
(the order used by `sorted` on strings). -/
def strLe : PyStr → PyStr → Bool
  | [], _ => true
  | _ :: _, [] => false
  | a :: as, b :: bs => if a < b then true else if b < a then false else strLe as bs

/-- Python `sorted(s)` for a set `s` of strings collected from `l`:
the sorted, duplicate-free list of `l`'s elements.  (The set's own iteration
order is irrelevant because the result is sorted, so this is deterministic.) -/
def pySortedSet (l : List PyStr) : List PyStr := (l.dedup).mergeSort strLe

/-- `PostProcessingPipeline._step_merge_transcript`: stable-sort the segments
by start time, render each as a `[MM:SS] Speaker: text` line, join with
newlines, and return the sorted set of speaker names. -/
def merge_transcript (segments : List Seg) : PyStr × List PyStr :=
  if segments.isEmpty then ([], [])
  else
    let sortedSegs := segments.mergeSort segLE
    (List.intercalate ['\n'] (sortedSegs.map renderLine),
     pySortedSet (sortedSegs.map (·.speaker)))

/-! ## Transcript chunking (`post_processing.py`, `chunk_transcript`,
lines 324–383) -/

/-- One `(word, speaker, start)` triple of the flattened word list
(`post_processing.py:346–352`). -/
structure WordMeta where
  word : PyStr
  speaker : PyStr
  start : ℚ
deriving DecidableEq, Repr, Inhabited

/-- Flatten the sorted segments into `(word, speaker, timestamp)` triples by
splitting each segment's text on whitespace. -/
def flattenWords (segments : List Seg) : List WordMeta :=
  ((segments.mergeSort segLE).map (fun seg =>
    (pySplitWs seg.text).map (fun w => ⟨w, seg.speaker, seg.start⟩))).flatten

/-- Normalise one bound of a Python slice `l[a:b]` for a list of length `n`:
negative indices count from the end, and both bounds are clamped to `[0, n]`. -/
def pyIdx (n : Nat) (i : Int) : Nat :=
  if i < 0 then ((n : Int) + i).toNat else min i.toNat n

/-- Python list slicing `l[a:b]` (step 1). -/
def pySlice (l : List α) (a b : Int) : List α :=
  (l.take (pyIdx l.length b)).drop (pyIdx l.length a)

/-- A chunk dict produced by `chunk_transcript` (`post_processing.py:371–376`).
`lo` (the window's start index `i`) and `words` (the window `chunk_words`)
are ghost fields recording the window the chunk was built from; the Python
dict carries only `text`, `speaker`, `start`, `end` (named `stop`). -/
structure Chunk where
  lo : Int
  words : List WordMeta
  text : PyStr
  speaker : PyStr
  start : ℚ
  stop : ℚ
deriving DecidableEq, Repr

/-- A function enumerating a Python set built from the elements of a list:
it must be duplicate-free and have exactly the list's elements, but its
order is whatever the runtime produces. -/
def IsSetList (f : List PyStr → List PyStr) : Prop :=
  ∀ l, (f l).Nodup ∧ ∀ x, x ∈ f l ↔ x ∈ l

/-- One concrete set-enumeration order (first occurrence), used to
instantiate theorems at concrete inputs. -/
def pySet (l : List PyStr) : List PyStr := l.dedup

/-- Another legitimate set-enumeration order (reversed first occurrence);
Python guarantees nothing about the iteration order of a `set` of strings. -/
def pySetRev (l : List PyStr) : List PyStr := l.dedup.reverse

/-- Build one chunk from the non-empty window `cw` starting at index `i`
(`post_processing.py:365–376`):
`text` is the space-join of the words, `speaker` the single speaker if the
set of speakers is a singleton and the comma-join of the set's enumeration
otherwise, and `start`/`stop` the timestamps of the first and last word. -/
def mkChunk (setList : List PyStr → List PyStr) (cw : List WordMeta) (i : Int) :
    Chunk :=
  let speakers := setList (cw.map (·.speaker))
  { lo := i
    words := cw
    text := List.intercalate [' '] (cw.map (·.word))
    speaker :=
      if 1 < speakers.length then List.intercalate [',', ' '] speakers
      else speakers.headD []
    start := (cw.headD default).start
    stop := (cw.getLastD default).start }

/-- Outcome of the chunking loop.  `idxErr` is the `IndexError` raised by
`chunk_words[0]` on an empty window; `fuelOut` means the loop performed the
given number of iterations without finishing. -/
inductive ChunkRes
  | ok (chunks : List Chunk)
  | idxErr
  | fuelOut
deriving DecidableEq, Repr

/-- The `while i < total` loop of `chunk_transcript`
(`post_processing.py:361–381`), with an explicit iteration budget `fuel`.
One unit of fuel is spent per iteration, so a result of `fuelOut` for every
`fuel` means the Python loop never terminates. -/
def chunkLoop (setList : List PyStr → List PyStr) (words : List WordMeta)
    (chunkSize overlap : Int) : Nat → Int → List Chunk → ChunkRes
  | 0, i, acc => if i < (words.length : Int) then .fuelOut else .ok acc
  | fuel + 1, i, acc =>
    if i < (words.length : Int) then
      let endIdx := min (i + chunkSize) (words.length : Int)
      let cw := pySlice words i endIdx
      if cw = [] then .idxErr
      else
        let c := mkChunk setList cw i
        let i2 := i + (chunkSize - overlap)
        if i2 ≥ (words.length : Int) then .ok (acc ++ [c])
        else chunkLoop setList words chunkSize overlap fuel i2 (acc ++ [c])
    else .ok acc

/-- `PostProcessingPipeline.chunk_transcript` (defaults `chunk_size = 500`,
`overlap = 50`).  The loop is run with budget `words.length + 1`, which is
proved sufficient whenever `overlap < chunk_size`. -/
def chunk_transcript (setList : List PyStr → List PyStr) (segments : List Seg)
    (chunkSize overlap : Int) : ChunkRes :=
  if segments.isEmpty then .ok []
  else
    let words := flattenWords segments
    if words.isEmpty then .ok []
    else chunkLoop setList words chunkSize overlap (words.length + 1) 0 []

/-- The windows emitted by the chunking loop from index `i` on, defined by
well-founded recursion under the invariant `0 ≤ overlap < chunkSize`;
used to characterise `chunkLoop`. -/
def windowsFrom (setList : List PyStr → List PyStr) (words : List WordMeta)
    (chunkSize overlap : Int) (hov : overlap < chunkSize) (i : Int) :
    List Chunk :=
  if hi : i < (words.length : Int) then
    let endIdx := min (i + chunkSize) (words.length : Int)
    let c := mkChunk setList (pySlice words i endIdx) i
    let i2 := i + (chunkSize - overlap)
    if i2 ≥ (words.length : Int) then [c]
    else c :: windowsFrom setList words chunkSize overlap hov i2
  else []
termination_by ((words.length : Int) - i).toNat
decreasing_by omega

/-- Sum over consecutive chunk pairs of the length of their shared window
overlap (`previous window end − next window start`). -/
def overlapsSum : List Chunk → Int
  | c :: d :: t => (c.lo + c.words.length - d.lo) + overlapsSum (d :: t)
  | _ => 0

/-- The speaker label of the first chunk, `[]` if there is none. -/
def firstChunkSpeaker : ChunkRes → PyStr
  | .ok (c :: _) => c.speaker
  | _ => []

/-- The speaker names (with multiplicity, in window order) of the first
chunk's window, `[]` if there is none. -/
def firstChunkSpeakers : ChunkRes → List PyStr
  | .ok (c :: _) => c.words.map (·.speaker)
  | _ => []

/-- Number of chunks produced, 0 on a non-`ok` outcome. -/
def numChunks : ChunkRes → Nat
  | .ok cs => cs.length
  | _ => 0

/-! ## Transcription stage segment filtering (`post_processing.py`,
`_step_transcribe_and_sentiment`, lines 196–228) -/

/-- A raw segment returned by `whisperx_client.transcribe_file` (only the
fields the filtering logic touches are modelled). -/
structure RawSeg where
  text : PyStr
  start : ℚ
  stop : ℚ
deriving DecidableEq, Repr

/-- The fields of a persisted `TranscriptionSegment` row set by the loop at
`post_processing.py:205–219` (fresh UUIDs and pass-through metadata are not
modelled). -/
structure DbSegRow where
  speaker_name : PyStr
  text : PyStr
  start_time : ℚ
  end_time : ℚ
  sentiment_score : ℚ
  sentiment_label : String
  word_count : Nat
  source : String
deriving DecidableEq, Repr

/-- The dict appended to `all_segments` (`post_processing.py:222–228`),
the in-memory form handed to the merge and chunking stages. -/
structure MemSeg where
  speaker : PyStr
  text : PyStr
  start : ℚ
  stop : ℚ
  sentiment_score : ℚ
  sentiment_label : String
deriving DecidableEq, Repr

/-- The `TranscriptionSegment` row built for one kept raw segment.
`compoundOf` models the VADER compound score of a text
(`sentiment_service.analyze_segment`); the label comes from
`compound_to_label`. -/
def mkDbRow (compoundOf : PyStr → ℚ) (speaker : PyStr) (sg : RawSeg) : DbSegRow :=
  let t := pyStrip sg.text
  { speaker_name := speaker
    text := t
    start_time := sg.start
    end_time := sg.stop
    sentiment_score := compoundOf t
    sentiment_label := compound_to_label (compoundOf t)
    word_count := (pySplitWs t).length
    source := "post_processing" }

/-- The in-memory dict built for one kept raw segment. -/
def mkMemSeg (compoundOf : PyStr → ℚ) (speaker : PyStr) (sg : RawSeg) : MemSeg :=
  let t := pyStrip sg.text
  { speaker := speaker
    text := t
    start := sg.start
    stop := sg.stop
    sentiment_score := compoundOf t
    sentiment_label := compound_to_label (compoundOf t) }

/-- The per-track segment loop of `_step_transcribe_and_sentiment`
(lines 196–228): strip each returned segment's text, silently skip it if the
result is empty (`if not text: continue`), otherwise persist a
`TranscriptionSegment` row and append the in-memory dict. -/
def processTrackSegments (compoundOf : PyStr → ℚ) (speaker : PyStr)
    (segs : List RawSeg) : List DbSegRow × List MemSeg :=
  let kept := segs.filterMap (fun sg =>
    if pyStrip sg.text = [] then none else some sg)
  (kept.map (mkDbRow compoundOf speaker), kept.map (mkMemSeg compoundOf speaker))

/-! ## Summarisation fallback (`ollama_client.py`, `summarize_transcript`,
lines 178–221) -/

/-- A Python value as produced by `json.loads`. -/
inductive PyVal where
  | str (s : String)
  | num (q : ℚ)
  | boolean (b : Bool)
  | null
  | arr (items : List PyVal)
  | dict (kvs : List (String × PyVal))

/-- Python dict item assignment `d[k] = v`: replace the value if the key is
present, otherwise append the new pair. -/
def dictSetItem (kvs : List (String × PyVal)) (k : String) (v : PyVal) :
    List (String × PyVal) :=
  if kvs.any (fun kv => kv.1 = k) then
    kvs.map (fun kv => if kv.1 = k then (k, v) else kv)
  else kvs ++ [(k, v)]

/-- The dict returned by `OllamaClient.generate`
(`{"response": …, "model": …, "tokens": …}`). -/
structure GenResult where
  response : String
  model : String
  tokens : Nat
deriving Repr

/-- `OllamaClient.summarize_transcript` after the completion call returned
`res`.  `jsonLoads` models `json.loads`, with `none` a raised
`JSONDecodeError`.  On parse failure the code substitutes the fallback dict;
it then assigns `parsed["_model"]` and `parsed["_tokens"]`, which raises
`TypeError` (modelled as `.error ()`) if the parsed value is not a dict. -/
def summarize_transcript (jsonLoads : String → Option PyVal) (res : GenResult) :
    Except Unit PyVal :=
  let parsed : PyVal :=
    match jsonLoads res.response with
    | some v => v
    | none =>
      .dict [("executive_summary", .str res.response),
             ("key_points", .arr []),
             ("decisions_made", .arr []),
             ("follow_ups", .arr [])]
  match parsed with
  | .dict kvs =>
    .ok (.dict (dictSetItem (dictSetItem kvs "_model" (.str res.model))
      "_tokens" (.num res.tokens)))
  | _ => .error ()

/-! ## Pipeline orchestration (`post_processing.py`, `process_meeting`,
lines 58–152) -/

/-- The `Meeting.status` lifecycle values. -/
inductive MStatus
  | waiting
  | active
  | processing
  | completed
  | failed
deriving DecidableEq, Repr

/-- The observable meeting state the pipeline mutates: its status and whether
`ended_at` has been stamped. -/
structure MeetingState where
  status : MStatus
  endedAtStamped : Bool
deriving DecidableEq, Repr

/-- The attempts the pipeline makes, in program order. -/
inductive StageTag
  | initialUpdate
  | transcribe
  | mergeStep
  | chunkEmbed
  | summarise
  | extractTasks
  | deepSentiment
  | calendarExport
  | finalUpdate
  | cleanup
deriving DecidableEq, Repr

/-- The outcomes of the pipeline's fallible calls, supplied by the
environment (external services and the database); `.error ()` is a raised
exception.  This models fault injection into any subset of the stages. -/
structure PipelineEnv where
  initUpdateRes : Except Unit Unit
  transcribeRes : Except Unit (List Seg)
  mergeRes : Except Unit (PyStr × List PyStr)
  chunkEmbedRes : Except Unit Unit
  summariseRes : Except Unit PyVal
  tasksRes : Except Unit (List RawTask)
  sentimentRes : Except Unit Unit
  calendarRes : Except Unit Unit
  finalUpdateRes : Except Unit Unit
  cleanupRes : Except Unit Unit

/-- `PostProcessingPipeline.process_meeting` (lines 58–152) as a state
machine over the owning meeting's state, returning the final state and the
sequence of attempts made.  The initial status update (lines 69–76) is
outside every `try`, so its failure propagates out of the coroutine; every
numbered step is wrapped in its own `try/except` that logs and swallows the
exception, and the step-10 `try` is the only place the terminal status is
written. -/
def process_meeting (env : PipelineEnv) (st : MeetingState) :
    Except Unit (MeetingState × List StageTag) :=
  match env.initUpdateRes with
  | .error e => .error e
  | .ok _ =>
    -- lines 69–76: status := "processing"
    let st1 : MeetingState := { st with status := .processing }
    -- Step 1-2 (lines 81–85): all_segments defaults to [] on failure
    let _allSegments : List Seg :=
      match env.transcribeRes with | .ok segs => segs | .error _ => []
    -- Step 3 (lines 88–94): merged_transcript/"speaker_names" keep defaults
    let _merged : PyStr × List PyStr :=
      match env.mergeRes with | .ok m => m | .error _ => ([], [])
    -- Step 4-5 (lines 97–101), Step 6 (104–109), Step 7 (112–117),
    -- Step 8 (120–124), Step 9 (127–131): attempted unconditionally,
    -- failures logged and swallowed
    let _tasksData : List RawTask :=
      match env.tasksRes with | .ok ts => ts | .error _ => []
    -- Step 10 (lines 134–144): the single terminal status update
    let st2 : MeetingState :=
      match env.finalUpdateRes with
      | .ok _ => { st1 with status := .completed, endedAtStamped := true }
      | .error _ => st1
    -- cleanup (lines 147–150): best-effort, always swallowed
    .ok (st2,
      [.initialUpdate, .transcribe, .mergeStep, .chunkEmbed, .summarise,
       .extractTasks, .deepSentiment, .calendarExport, .finalUpdate, .cleanup])

/-- The fixed sequence of attempts `process_meeting` makes once the initial
status update has succeeded. -/
def pipelineTrace : List StageTag :=
  [.initialUpdate, .transcribe, .mergeStep, .chunkEmbed, .summarise,
   .extractTasks, .deepSentiment, .calendarExport, .finalUpdate, .cleanup]

/-! ## Concrete instances used by witnesses and counterexamples -/

/-- Two single-segment tracks (the end-to-end scenario of the spec, §8). -/
def segsTwo : List Seg :=
  [⟨"A".toList, "hello team".toList, 0, 5⟩,
   ⟨"B".toList, "hi there".toList, 2, 6⟩]

/-- A single two-word segment. -/
def segsStuck : List Seg := [⟨"A".toList, "hello there".toList, 0, 1⟩]

/-- A single four-word segment. -/
def segsFour : List Seg := [⟨"A".toList, "w1 w2 w3 w4".toList, 0, 1⟩]

/-- The flattened word list of `segsTwo`. -/
def wordsTwo : List WordMeta :=
  [⟨"hello".toList, "A".toList, 0⟩, ⟨"team".toList, "A".toList, 0⟩,
   ⟨"hi".toList, "B".toList, 2⟩, ⟨"there".toList, "B".toList, 2⟩]

/-- The flattened word list of `segsStuck`. -/
def wordsStuck : List WordMeta :=
  [⟨"hello".toList, "A".toList, 0⟩, ⟨"there".toList, "A".toList, 0⟩]

/-- The flattened word list of `segsFour`. -/
def wordsFour : List WordMeta :=
  [⟨"w1".toList, "A".toList, 0⟩, ⟨"w2".toList, "A".toList, 0⟩,
   ⟨"w3".toList, "A".toList, 0⟩, ⟨"w4".toList, "A".toList, 0⟩]

/-- Raw transcription output with one real segment and one whitespace-only
segment. -/
def segsBlank : List RawSeg :=
  [⟨" hi there ".toList, 0, 1⟩, ⟨"   ".toList, 2, 3⟩]

/-- An extracted task with an out-of-range priority and an unparseable
due date. -/
def urgentTask : RawTask :=
  { title := some "Ship it"
    assignee := some "A"
    due_date := some "not-a-date"
    priority := some "urgent"
    context := some "ASAP" }

/-- An environment in which every stage and the cleanup raise, but the two
status updates succeed. -/
def envFaulty : PipelineEnv :=
  { initUpdateRes := .ok ()
    transcribeRes := .error ()
    mergeRes := .error ()
    chunkEmbedRes := .error ()
    summariseRes := .error ()
    tasksRes := .error ()
    sentimentRes := .error ()
    calendarRes := .error ()
    finalUpdateRes := .ok ()
    cleanupRes := .error () }

/-! # Theorems -/

/-- C7: the sentiment label mapping returns `positive` exactly when
`compound ≥ 0.05`, `negative` exactly when `compound ≤ -0.05`, and `neutral`
otherwise; in particular `0.05 ↦ positive`, `-0.05 ↦ negative`, and
`0.049`, `-0.049 ↦ neutral`. -/
theorem compound_label_thresholds (c : ℚ) :
    (compound_to_label c = "positive" ↔ 0.05 ≤ c) ∧
    (compound_to_label c = "negative" ↔ c ≤ -0.05) ∧
    (-0.05 < c → c < 0.05 → compound_to_label c = "neutral") ∧
    compound_to_label 0.05 = "positive" ∧
    compound_to_label (-0.05) = "negative" ∧
    compound_to_label 0.049 = "neutral" ∧
    compound_to_label (-0.049) = "neutral" := by
  refine ⟨?_, ?_, ?_, by norm_num [compound_to_label], by norm_num [compound_to_label],
    by norm_num [compound_to_label], by norm_num [compound_to_label]⟩
  · by_cases h1 : c ≥ (0.05 : ℚ)
    · simp [compound_to_label, h1, ge_iff_le] at *
    · have h2 : ¬ (0.05 : ℚ) ≤ c := h1
      simp only [compound_to_label, if_neg h1]
      constructor
      · intro hcontra
        exfalso
        by_cases h3 : c ≤ (-0.05 : ℚ) <;> simp [h3] at hcontra
      · intro hc; exact absurd hc h2
  · by_cases h1 : c ≥ (0.05 : ℚ)
    · simp only [compound_to_label, if_pos h1]
      constructor
      · intro hcontra; exact absurd hcontra (by decide)
      · intro hc; exfalso; rw [ge_iff_le] at h1; linarith
    · by_cases h3 : c ≤ (-0.05 : ℚ)
      · simp [compound_to_label, h1, h3]
      · simp only [compound_to_label, if_neg h1, if_neg h3]
        constructor
        · intro hcontra; exact absurd hcontra (by decide)
        · intro hc; exact absurd hc h3
  · intro hlo hhi
    have h1 : ¬ c ≥ (0.05 : ℚ) := by rw [ge_iff_le]; linarith
    have h3 : ¬ c ≤ (-0.05 : ℚ) := by linarith
    simp [compound_to_label, h1, h3]

/-- Witness for `compound_label_thresholds` at the concrete score 0. -/
theorem compound_label_thresholds_witness : compound_to_label 0 = "neutral" :=
  (compound_label_thresholds 0).2.2.1 (by norm_num) (by norm_num)

/-- C8: one `Task` row is persisted per extracted item; a priority outside
{low, medium, high, critical} (for example `"urgent"`) is stored as
`medium`; a due date that is absent, null/empty, or unparseable as an ISO
date is stored as null. -/
theorem extract_tasks_coercion (parseIso : String → Option PyDate)
    (tasks : List RawTask) :
    extract_tasks_rows parseIso tasks = tasks.map (taskRow parseIso) ∧
    (extract_tasks_rows parseIso tasks).length = tasks.length ∧
    (∀ t : RawTask, (taskRow parseIso t).priority ∈ allowedPriorities) ∧
    (∀ t : RawTask, t.priority = some "urgent" →
      (taskRow parseIso t).priority = "medium") ∧
    (∀ t : RawTask, t.priority.getD "medium" ∉ allowedPriorities →
      (taskRow parseIso t).priority = "medium") ∧
    (∀ t : RawTask, t.due_date = none → (taskRow parseIso t).due_date = none) ∧
    (∀ t : RawTask, ∀ s : String, t.due_date = some s → parseIso s = none →
      (taskRow parseIso t).due_date = none) := by
  refine ⟨rfl, by simp [extract_tasks_rows], ?_, ?_, ?_, ?_, ?_⟩
  · intro t
    simp only [taskRow]
    split
    · assumption
    · decide
  · intro t ht
    simp [taskRow, ht]
    decide
  · intro t ht
    simp only [taskRow]
    rw [if_neg ht]
  · intro t ht
    simp [taskRow, ht]
  · intro t s ht hp
    simp only [taskRow, ht]
    by_cases hs : s = "" <;> simp [hs, hp]

/-- Witness for `extract_tasks_coercion`: the priority `"urgent"` and the
unparseable due date `"not-a-date"` are both coerced. -/
theorem extract_tasks_coercion_witness :
    (taskRow (fun _ => none) urgentTask).priority = "medium" ∧
    (taskRow (fun _ => none) urgentTask).due_date = none :=
  ⟨(extract_tasks_coercion (fun _ => none) []).2.2.2.1 urgentTask rfl,
   (extract_tasks_coercion (fun _ => none) []).2.2.2.2.2.2 urgentTask
     "not-a-date" rfl rfl⟩

/-- C9: when the completion response body is not parseable as JSON,
`summarize_transcript` does not raise; it returns a dict whose
`executive_summary` is the raw response text and whose `key_points`,
`decisions_made` and `follow_ups` are empty arrays. -/
theorem summarize_parse_fallback (jsonLoads : String → Option PyVal)
    (res : GenResult) (h : jsonLoads res.response = none) :
    summarize_transcript jsonLoads res =
      .ok (.dict [("executive_summary", .str res.response),
                  ("key_points", .arr []),
                  ("decisions_made", .arr []),
                  ("follow_ups", .arr []),
                  ("_model", .str res.model),
                  ("_tokens", .num res.tokens)]) ∧
    ∃ kvs, summarize_transcript jsonLoads res = .ok (.dict kvs) ∧
      kvs.lookup "executive_summary" = some (.str res.response) ∧
      kvs.lookup "key_points" = some (.arr []) ∧
      kvs.lookup "decisions_made" = some (.arr []) ∧
      kvs.lookup "follow_ups" = some (.arr []) := by
  have heq : summarize_transcript jsonLoads res =
      .ok (.dict [("executive_summary", .str res.response),
                  ("key_points", .arr []),
                  ("decisions_made", .arr []),
                  ("follow_ups", .arr []),
                  ("_model", .str res.model),
                  ("_tokens", .num res.tokens)]) := by
    unfold summarize_transcript
    rw [h]
    rfl
  exact ⟨heq, _, heq, rfl, rfl, rfl, rfl⟩

/-- Witness for `summarize_parse_fallback` with the constantly-failing
parser. -/
theorem summarize_parse_fallback_witness :
    summarize_transcript (fun _ => none) ⟨"RAW", "m", 3⟩ =
      .ok (.dict [("executive_summary", .str "RAW"),
                  ("key_points", .arr []),
                  ("decisions_made", .arr []),
                  ("follow_ups", .arr []),
                  ("_model", .str "m"),
                  ("_tokens", .num 3)]) :=
  (summarize_parse_fallback (fun _ => none) ⟨"RAW", "m", 3⟩ rfl).1

/-! ### Helper lemmas about the merge step -/

/-- `segLE` is transitive (as required by the sorting lemmas). -/
theorem segLE_trans : ∀ a b c : Seg, segLE a b → segLE b c → segLE a c := by
  intro a b c hab hbc
  simp only [segLE, decide_eq_true_eq] at *
  exact le_trans hab hbc

/-- `segLE` is total. -/
theorem segLE_total : ∀ a b : Seg, segLE a b || segLE b a := by
  intro a b
  simp only [segLE]
  rcases le_total a.start b.start with h | h <;> simp [h]

/-- Python's stable sort preserves the relative order of segments with equal
start times: filtering the sorted list by a start time gives the same list
as filtering the input. -/
theorem filter_mergeSort_start (l : List Seg) (q : ℚ) :
    (l.mergeSort segLE).filter (fun s => decide (s.start = q)) =
      l.filter (fun s => decide (s.start = q)) := by
  set p : Seg → Bool := fun s => decide (s.start = q) with hp
  have hpw : (l.filter p).Pairwise (fun a b => segLE a b) := by
    apply List.pairwise_of_forall_mem_list
    intro a ha b hb
    have ha' : a.start = q := by
      have := (List.mem_filter.mp ha).2
      simpa [hp] using this
    have hb' : b.start = q := by
      have := (List.mem_filter.mp hb).2
      simpa [hp] using this
    simp [segLE, ha', hb']
  have hsub : List.Sublist (l.filter p) (l.mergeSort segLE) :=
    List.sublist_mergeSort segLE_trans segLE_total hpw (List.filter_sublist l)
  have hself : (l.filter p).filter p = l.filter p :=
    List.filter_eq_self.mpr (fun a ha => (List.mem_filter.mp ha).2)
  have hsub2 : List.Sublist (l.filter p) ((l.mergeSort segLE).filter p) := by
    have := hsub.filter p
    rwa [hself] at this
  have hperm : List.Perm ((l.mergeSort segLE).filter p) (l.filter p) :=
    (List.mergeSort_perm l segLE).filter p
  exact (hsub2.eq_of_length hperm.length_eq.symm).symm

/-- `strLe` is transitive. -/
theorem strLe_trans : ∀ a b c : PyStr, strLe a b → strLe b c → strLe a c := by
  intro a
  induction a with
  | nil => intro b c _ _; rfl
  | cons x xs ih =>
    intro b c hab hbc
    cases b with
    | nil => simp [strLe] at hab
    | cons y ys =>
      cases c with
      | nil => simp [strLe] at hbc
      | cons z zs =>
        simp only [strLe] at hab hbc ⊢
        by_cases hxy : x < y
        · by_cases hyz : y < z
          · simp [lt_trans hxy hyz]
          · by_cases hzy : z < y
            · simp [hyz, hzy] at hbc
            · have : y = z := le_antisymm (not_lt.mp hzy) (not_lt.mp hyz)
              subst this
              simp [hxy]
        · by_cases hyx : y < x
          · simp [hxy, hyx] at hab
          · have hxyeq : x = y := le_antisymm (not_lt.mp hyx) (not_lt.mp hxy)
            subst hxyeq
            simp only [if_neg hxy, if_neg hyx] at hab
            by_cases hyz : x < z
            · simp [hyz]
            · by_cases hzy : z < x
              · simp [hyz, hzy] at hbc
              · simp only [if_neg hyz, if_neg hzy] at hbc ⊢
                exact ih ys zs hab hbc

/-- `strLe` is total. -/
theorem strLe_total : ∀ a b : PyStr, strLe a b || strLe b a := by
  intro a
  induction a with
  | nil => intro b; simp [strLe]
  | cons x xs ih =>
    intro b
    cases b with
    | nil => simp [strLe]
    | cons y ys =>
      simp only [strLe]
      by_cases hxy : x < y
      · simp [hxy]
      · by_cases hyx : y < x
        · simp [hxy, hyx]
        · simpa [hxy, hyx] using ih ys

/-- `pySortedSet` always returns a sorted, duplicate-free list. -/
theorem pySortedSet_sorted_nodup (l : List PyStr) :
    (pySortedSet l).Pairwise (fun a b => strLe a b) ∧ (pySortedSet l).Nodup := by
  constructor
  · exact List.sorted_mergeSort strLe_trans strLe_total l.dedup
  · exact ((List.mergeSort_perm l.dedup strLe).symm).nodup (List.nodup_dedup l)

/-- C4: the lines of the merged transcript are the rendering of the segments
stable-sorted by start time: they appear in non-decreasing start order, and
segments with equal start times keep their relative input order. -/
theorem merge_sorted_stable (segments : List Seg) :
    (merge_transcript segments).1 =
      List.intercalate ['\n'] ((segments.mergeSort segLE).map renderLine) ∧
    (segments.mergeSort segLE).Pairwise (fun a b => a.start ≤ b.start) ∧
    (∀ q : ℚ, (segments.mergeSort segLE).filter (fun s => decide (s.start = q)) =
      segments.filter (fun s => decide (s.start = q))) := by
  refine ⟨?_, ?_, fun q => filter_mergeSort_start segments q⟩
  · by_cases h : segments.isEmpty
    · have he : segments = [] := List.isEmpty_iff.mp h
      subst he
      simp only [merge_transcript, List.mergeSort_nil, List.map_nil, if_pos h]
      rfl
    · simp [merge_transcript, h]
  · have hs := List.sorted_mergeSort segLE_trans segLE_total segments
    exact hs.imp (fun hab => by simpa [segLE] using hab)

/-- C5: the merge is total: empty input yields `("", [])`; a single segment
yields exactly one line `[MM:SS] Speaker: text` with `MM`/`SS` the floor
division and modulo of the start time by 60; the returned speaker list is
always sorted and duplicate-free. -/
theorem merge_totality_format :
    merge_transcript [] = ([], []) ∧
    (∀ seg : Seg, merge_transcript [seg] = (renderLine seg, [seg.speaker])) ∧
    (∀ seg : Seg, renderLine seg =
      '[' :: (pad2 (pyIntOfQ (pyFloorDivQ seg.start 60)) ++ ':' ::
        pad2 (pyIntOfQ (pyModQ seg.start 60)) ++ ']' :: ' ' ::
        (seg.speaker ++ ':' :: ' ' :: seg.text))) ∧
    (∀ segments : List Seg,
      ((merge_transcript segments).2).Pairwise (fun a b => strLe a b) ∧
      ((merge_transcript segments).2).Nodup) := by
  refine ⟨rfl, ?_, fun seg => rfl, ?_⟩
  · intro seg
    simp [merge_transcript, pySortedSet, List.intercalate]
  · intro segments
    by_cases h : segments.isEmpty
    · have he : segments = [] := List.isEmpty_iff.mp h
      subst he
      simp [merge_transcript]
    · simp only [merge_transcript, if_neg h]
      exact pySortedSet_sorted_nodup _

/-! ### Helper lemmas about the chunking loop -/

/-- `pyIdx` for a non-negative index. -/
theorem pyIdx_nonneg (n : Nat) (i : Int) (h : 0 ≤ i) :
    pyIdx n i = min i.toNat n := by
  simp [pyIdx, not_lt.mpr h]

/-- A Python slice with `0 ≤ i ≤ e ≤ len` is the corresponding
take-then-drop, of length `e - i`. -/
theorem pySlice_nonneg_spec (l : List α) (i e : Int) (h0 : 0 ≤ i)
    (hie : i ≤ e) (he : e ≤ (l.length : Int)) :
    pySlice l i e = (l.take e.toNat).drop i.toNat ∧
    (pySlice l i e).length = e.toNat - i.toNat := by
  have h0e : 0 ≤ e := le_trans h0 hie
  unfold pySlice
  rw [pyIdx_nonneg _ _ h0e, pyIdx_nonneg _ _ h0]
  have h2 : min e.toNat l.length = e.toNat := min_eq_left (by omega)
  have h3 : min i.toNat l.length = i.toNat := min_eq_left (by omega)
  rw [h2, h3]
  refine ⟨rfl, ?_⟩
  simp only [List.length_drop, List.length_take]
  omega

/-- With sufficient fuel and `0 ≤ overlap < chunkSize`, the chunking loop
succeeds and produces exactly the windows described by `windowsFrom`. -/
theorem chunkLoop_eq_windowsFrom (setList : List PyStr → List PyStr)
    (words : List WordMeta) (cs ov : Int) (h0 : 0 ≤ ov) (hov : ov < cs) :
    ∀ (fuel : Nat) (i : Int) (acc : List Chunk), 0 ≤ i →
      ((words.length : Int) - i).toNat ≤ fuel →
      chunkLoop setList words cs ov fuel i acc =
        .ok (acc ++ windowsFrom setList words cs ov hov i) := by
  intro fuel
  induction fuel with
  | zero =>
    intro i acc h0i hfuel
    have hge : ¬ i < (words.length : Int) := by omega
    rw [windowsFrom]
    simp only [chunkLoop, if_neg hge, dif_neg hge, List.append_nil]
  | succ fuel ih =>
    intro i acc h0i hfuel
    by_cases hi : i < (words.length : Int)
    · have hcs : 0 < cs := lt_of_le_of_lt h0 hov
      have hie : i < min (i + cs) (words.length : Int) :=
        lt_min (by omega) hi
      have hel : min (i + cs) (words.length : Int) ≤ (words.length : Int) :=
        min_le_right _ _
      obtain ⟨hslice, hlen⟩ :=
        pySlice_nonneg_spec words i (min (i + cs) (words.length : Int)) h0i
          (le_of_lt hie) hel
      have hcw : ¬ pySlice words i (min (i + cs) (words.length : Int)) = [] := by
        intro hnil
        rw [hnil] at hlen
        simp only [List.length_nil] at hlen
        omega
      by_cases hbrk : i + (cs - ov) ≥ (words.length : Int)
      · rw [windowsFrom]
        simp only [chunkLoop, if_pos hi, if_neg hcw, if_pos hbrk, dif_pos hi]
      · have h0i2 : 0 ≤ i + (cs - ov) := by omega
        have hfuel2 : ((words.length : Int) - (i + (cs - ov))).toNat ≤ fuel := by
          omega
        rw [windowsFrom]
        simp only [chunkLoop, if_pos hi, if_neg hcw, if_neg hbrk, dif_pos hi]
        rw [ih _ _ h0i2 hfuel2]
        simp
    · rw [windowsFrom]
      simp only [chunkLoop, if_neg hi, dif_neg hi, List.append_nil]

/-- Structural invariants of the windows: the first window starts at `i`;
every window is a well-formed chunk of the flattened word list; every index
in `[i, len)` is covered by some window; and the window lengths sum to the
remaining word count plus the (once-counted) consecutive overlaps. -/
theorem windowsFrom_spec (setList : List PyStr → List PyStr)
    (words : List WordMeta) (cs ov : Int) (h0 : 0 ≤ ov) (hov : ov < cs) :
    ∀ i : Int, 0 ≤ i → i < (words.length : Int) →
      (∃ hd tl, windowsFrom setList words cs ov hov i = hd :: tl ∧ hd.lo = i) ∧
      (∀ c ∈ windowsFrom setList words cs ov hov i,
        i ≤ c.lo ∧ 0 ≤ c.lo ∧ c.lo < (words.length : Int) ∧
        c = mkChunk setList
              (pySlice words c.lo (min (c.lo + cs) (words.length : Int)))
              c.lo ∧
        c.words ≠ [] ∧
        (c.words.length : Int) =
          min (c.lo + cs) (words.length : Int) - c.lo) ∧
      (∀ j : Int, i ≤ j → j < (words.length : Int) →
        ∃ c ∈ windowsFrom setList words cs ov hov i,
          c.lo ≤ j ∧ j < c.lo + (c.words.length : Int)) ∧
      (((windowsFrom setList words cs ov hov i).map
          (fun c => (c.words.length : Int))).sum =
        ((words.length : Int) - i) +
          overlapsSum (windowsFrom setList words cs ov hov i)) := by
  have hcs : 0 < cs := lt_of_le_of_lt h0 hov
  suffices H : ∀ n : Nat, ∀ i : Int,
      ((words.length : Int) - i).toNat ≤ n → 0 ≤ i →
      i < (words.length : Int) →
      (∃ hd tl, windowsFrom setList words cs ov hov i = hd :: tl ∧ hd.lo = i) ∧
      (∀ c ∈ windowsFrom setList words cs ov hov i,
        i ≤ c.lo ∧ 0 ≤ c.lo ∧ c.lo < (words.length : Int) ∧
        c = mkChunk setList
              (pySlice words c.lo (min (c.lo + cs) (words.length : Int)))
              c.lo ∧
        c.words ≠ [] ∧
        (c.words.length : Int) =
          min (c.lo + cs) (words.length : Int) - c.lo) ∧
      (∀ j : Int, i ≤ j → j < (words.length : Int) →
        ∃ c ∈ windowsFrom setList words cs ov hov i,
          c.lo ≤ j ∧ j < c.lo + (c.words.length : Int)) ∧
      (((windowsFrom setList words cs ov hov i).map
          (fun c => (c.words.length : Int))).sum =
        ((words.length : Int) - i) +
          overlapsSum (windowsFrom setList words cs ov hov i)) by
    intro i h0i hi
    exact H ((words.length : Int) - i).toNat i le_rfl h0i hi
  intro n
  induction n with
  | zero => intro i hn h0i hi; omega
  | succ n ih =>
    intro i hn h0i hi
    have hie : i < min (i + cs) (words.length : Int) := lt_min (by omega) hi
    have hel : min (i + cs) (words.length : Int) ≤ (words.length : Int) :=
      min_le_right _ _
    obtain ⟨hslice, hlenN⟩ :=
      pySlice_nonneg_spec words i (min (i + cs) (words.length : Int)) h0i
        (le_of_lt hie) hel
    have hlen : ((pySlice words i
        (min (i + cs) (words.length : Int))).length : Int) =
        min (i + cs) (words.length : Int) - i := by omega
    have hcw : pySlice words i (min (i + cs) (words.length : Int)) ≠ [] := by
      intro hnil
      rw [hnil] at hlen
      simp only [List.length_nil, Int.natCast_zero] at hlen
      omega
    by_cases hbrk : i + (cs - ov) ≥ (words.length : Int)
    · -- last window: it runs to the end of the word list
      have hmin : min (i + cs) (words.length : Int) = (words.length : Int) := by
        omega
      rw [windowsFrom, dif_pos hi, if_pos hbrk]
      refine ⟨⟨_, [], rfl, rfl⟩, ?_, ?_, ?_⟩
      · intro c hc
        rw [List.mem_singleton] at hc
        subst hc
        refine ⟨le_refl _, h0i, hi, rfl, hcw, ?_⟩
        simpa [mkChunk] using hlen
      · intro j hij hj
        refine ⟨_, List.mem_singleton.mpr rfl, hij, ?_⟩
        show j < i + ((mkChunk setList _ i).words.length : Int)
        simp only [mkChunk]
        omega
      · simp only [List.map_cons, List.map_nil, List.sum_cons, List.sum_nil,
          overlapsSum]
        simp only [mkChunk]
        omega
    · -- the loop continues at i + (cs - ov)
      have h0i2 : 0 ≤ i + (cs - ov) := by omega
      have hi2 : i + (cs - ov) < (words.length : Int) := by omega
      have hn2 : ((words.length : Int) - (i + (cs - ov))).toNat ≤ n := by omega
      obtain ⟨⟨hd2, tl2, hws2, hlo2⟩, hchunks2, hcover2, hsum2⟩ :=
        ih (i + (cs - ov)) hn2 h0i2 hi2
      rw [windowsFrom, dif_pos hi, if_neg hbrk]
      refine ⟨⟨_, _, rfl, rfl⟩, ?_, ?_, ?_⟩
      · intro c hc
        rcases List.mem_cons.mp hc with hc | hc
        · subst hc
          refine ⟨le_refl _, h0i, hi, rfl, hcw, ?_⟩
          simpa [mkChunk] using hlen
        · obtain ⟨hle, h0lo, hlolt, hform, hne, hwlen⟩ := hchunks2 c hc
          exact ⟨by omega, h0lo, hlolt, hform, hne, hwlen⟩
      · intro j hij hj
        by_cases hjc : j < min (i + cs) (words.length : Int)
        · refine ⟨_, List.mem_cons_self _ _, hij, ?_⟩
          show j < i + ((mkChunk setList _ i).words.length : Int)
          simp only [mkChunk]
          omega
        · have hj2 : i + (cs - ov) ≤ j := by omega
          obtain ⟨c, hc, hcj1, hcj2⟩ := hcover2 j hj2 hj
          exact ⟨c, List.mem_cons_of_mem _ hc, hcj1, hcj2⟩
      · rw [hws2]
        rw [hws2] at hsum2
        simp only [List.map_cons, List.sum_cons, overlapsSum] at hsum2 ⊢
        have hcl : (((mkChunk setList
            (pySlice words i (min (i + cs) (words.length : Int))) i).words.length :
              Int) = min (i + cs) (words.length : Int) - i) := by
          simpa [mkChunk] using hlen
        simp only [mkChunk] at hcl ⊢
        omega

/-- `pySet` is a legitimate set enumeration. -/
theorem pySet_isSetList : IsSetList pySet :=
  fun l => ⟨List.nodup_dedup l, fun _ => List.mem_dedup⟩

/-- `pySetRev` is a legitimate set enumeration. -/
theorem pySetRev_isSetList : IsSetList pySetRev := by
  intro l
  constructor
  · simpa [pySetRev, List.nodup_reverse] using List.nodup_dedup l
  · intro x
    simp [pySetRev, List.mem_reverse, List.mem_dedup]

/-- A list containing two distinct elements has length at least 2. -/
theorem two_mem_one_lt_length {l : List PyStr} {a b : PyStr}
    (ha : a ∈ l) (hb : b ∈ l) (hne : a ≠ b) : 1 < l.length := by
  cases l with
  | nil => simp at ha
  | cons x t =>
    cases t with
    | nil =>
      simp only [List.mem_singleton] at ha hb
      exact absurd (ha.trans hb.symm) hne
    | cons y t2 =>
      simp only [List.length_cons]
      omega

/-- A duplicate-free list whose members are all `s`, with `s` a member,
is `[s]`. -/
theorem singleton_of_nodup_mem {l : List PyStr} {s : PyStr}
    (hnd : l.Nodup) (hmem : s ∈ l) (hall : ∀ x ∈ l, x = s) : l = [s] := by
  cases l with
  | nil => simp at hmem
  | cons a t =>
    have ha : a = s := hall a (List.mem_cons_self a t)
    cases t with
    | nil => rw [ha]
    | cons b t2 =>
      exfalso
      have hb : b = s := hall b (by simp)
      have hab : a ≠ b := by
        have hcons := List.nodup_cons.mp hnd
        exact fun h => hcons.1 (h ▸ List.mem_cons_self b t2)
      exact hab (ha.trans hb.symm)

/-- The speaker label of a chunk built from a non-empty window, for any
legitimate set enumeration: the plain name when the window has exactly one
speaker, else the comma-join of a duplicate-free enumeration of the window's
speakers. -/
theorem mkChunk_speaker (setList : List PyStr → List PyStr)
    (hsl : IsSetList setList) (cw : List WordMeta) (hcw : cw ≠ []) (i : Int) :
    (∀ s : PyStr, (∀ w ∈ cw, w.speaker = s) →
      (mkChunk setList cw i).speaker = s) ∧
    ((∃ w1 ∈ cw, ∃ w2 ∈ cw, w1.speaker ≠ w2.speaker) →
      ∃ L : List PyStr, (mkChunk setList cw i).speaker =
          List.intercalate [',', ' '] L ∧ L.Nodup ∧ 1 < L.length ∧
        (∀ x : PyStr, x ∈ L ↔ ∃ w ∈ cw, w.speaker = x)) := by
  obtain ⟨hnd, hmem⟩ := hsl (cw.map (fun w => w.speaker))
  constructor
  · intro s hall
    have hs : s ∈ setList (cw.map (fun w => w.speaker)) := by
      rw [hmem _]
      obtain ⟨w, hw⟩ := List.exists_mem_of_ne_nil cw hcw
      exact List.mem_map.mpr ⟨w, hw, hall w hw⟩
    have hallmem : ∀ x ∈ setList (cw.map (fun w => w.speaker)), x = s := by
      intro x hx
      rw [hmem _] at hx
      obtain ⟨w, hw, hws⟩ := List.mem_map.mp hx
      rw [← hws]
      exact hall w hw
    have hone := singleton_of_nodup_mem hnd hs hallmem
    simp [mkChunk, hone]
  · rintro ⟨w1, hw1, w2, hw2, hne⟩
    have h1 : w1.speaker ∈ setList (cw.map (fun w => w.speaker)) := by
      rw [hmem _]
      exact List.mem_map.mpr ⟨w1, hw1, rfl⟩
    have h2 : w2.speaker ∈ setList (cw.map (fun w => w.speaker)) := by
      rw [hmem _]
      exact List.mem_map.mpr ⟨w2, hw2, rfl⟩
    have hlen := two_mem_one_lt_length h1 h2 hne
    refine ⟨setList (cw.map (fun w => w.speaker)), ?_, hnd, hlen, ?_⟩
    · simp [mkChunk, if_pos hlen]
    · intro x
      rw [hmem _, List.mem_map]

/-- C2 (amended): for a legitimate set-enumeration order and
`0 ≤ overlap < chunkSize`, every chunk's speaker is the single speaker name
when the window has exactly one, and otherwise a comma-joined,
duplicate-free enumeration of all speakers present in the window (in an
order the runtime's set iteration chooses, not necessarily sorted). -/
theorem chunk_speaker_label (setList : List PyStr → List PyStr)
    (hsl : IsSetList setList) (segments : List Seg) (cs ov : Int)
    (h0 : 0 ≤ ov) (hov : ov < cs) :
    ∃ chunks : List Chunk, chunk_transcript setList segments cs ov = .ok chunks ∧
      ∀ c ∈ chunks, c.words ≠ [] ∧
        (∀ s : PyStr, (∀ w ∈ c.words, w.speaker = s) → c.speaker = s) ∧
        ((∃ w1 ∈ c.words, ∃ w2 ∈ c.words, w1.speaker ≠ w2.speaker) →
          ∃ L : List PyStr, c.speaker = List.intercalate [',', ' '] L ∧
            L.Nodup ∧ (∀ x : PyStr, x ∈ L ↔ ∃ w ∈ c.words, w.speaker = x)) := by
  by_cases hseg : segments.isEmpty
  · exact ⟨[], by simp [chunk_transcript, hseg], by simp⟩
  · by_cases hwords : (flattenWords segments).isEmpty
    · exact ⟨[], by simp [chunk_transcript, hseg, hwords], by simp⟩
    · have hne : flattenWords segments ≠ [] := by
        simpa [List.isEmpty_iff] using hwords
      have hlenN : 0 < (flattenWords segments).length := List.length_pos.mpr hne
      have hlen0 : (0 : Int) < ((flattenWords segments).length : Int) := by
        omega
      refine ⟨windowsFrom setList (flattenWords segments) cs ov hov 0, ?_, ?_⟩
      · simp only [chunk_transcript, hseg, hwords, Bool.false_eq_true,
          if_false]
        rw [chunkLoop_eq_windowsFrom setList _ cs ov h0 hov _ 0 [] le_rfl
          (by omega)]
        simp
      · intro c hc
        obtain ⟨_, hchunks, _, _⟩ :=
          windowsFrom_spec setList (flattenWords segments) cs ov h0 hov 0
            le_rfl hlen0
        obtain ⟨_, _, _, hform, hcwne, _⟩ := hchunks c hc
        have hwordsEq : c.words = pySlice (flattenWords segments) c.lo
            (min (c.lo + cs) ((flattenWords segments).length : Int)) := by
          conv_lhs => rw [hform]
          rfl
        have hCWne : pySlice (flattenWords segments) c.lo
            (min (c.lo + cs) ((flattenWords segments).length : Int)) ≠ [] := by
          rw [← hwordsEq]
          exact hcwne
        obtain ⟨hsingle, hmulti⟩ := mkChunk_speaker setList hsl _ hCWne c.lo
        refine ⟨hcwne, ?_, ?_⟩
        · intro s hall
          rw [hwordsEq] at hall
          have := hsingle s hall
          rw [hform]
          exact this
        · intro hmul
          rw [hwordsEq] at hmul
          obtain ⟨L, hL1, hL2, _, hL4⟩ := hmulti hmul
          refine ⟨L, ?_, hL2, ?_⟩
          · rw [hform]
            exact hL1
          · intro x
            rw [hwordsEq]
            exact hL4 x

/-- Witness for `chunk_speaker_label` on the two-speaker example with the
first-occurrence set order. -/
theorem chunk_speaker_label_witness :
    IsSetList pySet ∧
    (∃ chunks : List Chunk, chunk_transcript pySet segsTwo 10 2 = .ok chunks ∧
      ∀ c ∈ chunks, c.words ≠ [] ∧
        (∀ s : PyStr, (∀ w ∈ c.words, w.speaker = s) → c.speaker = s) ∧
        ((∃ w1 ∈ c.words, ∃ w2 ∈ c.words, w1.speaker ≠ w2.speaker) →
          ∃ L : List PyStr, c.speaker = List.intercalate [',', ' '] L ∧
            L.Nodup ∧ (∀ x : PyStr, x ∈ L ↔ ∃ w ∈ c.words, w.speaker = x))) :=
  ⟨pySet_isSetList,
   chunk_speaker_label pySet pySet_isSetList segsTwo 10 2 (by norm_num)
     (by norm_num)⟩

/-- The segments of `segsTwo` are already sorted by start time. -/
theorem mergeSort_segsTwo : segsTwo.mergeSort segLE = segsTwo := by
  apply List.mergeSort_of_sorted
  simp [segsTwo, List.pairwise_cons, segLE]

/-- Evaluating the flattening of the two-speaker example. -/
theorem flatten_segsTwo : flattenWords segsTwo = wordsTwo := by
  simp only [flattenWords, mergeSort_segsTwo]
  rfl

/-- C2, counterexample to the claim as stated: under the legitimate set
order `pySetRev`, the single chunk of the two-speaker example gets the
speaker label `"B, A"`, which differs from `"A, B"`, the comma-join of the
sorted duplicate-free speaker list that the claim mandates. -/
theorem chunk_speaker_unsorted_counterexample :
    IsSetList pySetRev ∧
    firstChunkSpeaker (chunk_transcript pySetRev segsTwo 10 2) =
      "B, A".toList ∧
    List.intercalate [',', ' ']
      (pySortedSet (firstChunkSpeakers (chunk_transcript pySetRev segsTwo 10 2)))
      = "A, B".toList ∧
    ("B, A".toList : PyStr) ≠ "A, B".toList := by
  have hrun : firstChunkSpeakers (chunk_transcript pySetRev segsTwo 10 2) =
      ["A".toList, "A".toList, "B".toList, "B".toList] := by
    simp only [chunk_transcript, flatten_segsTwo]
    rfl
  refine ⟨pySetRev_isSetList, ?_, ?_, by decide⟩
  · simp only [chunk_transcript, flatten_segsTwo]
    rfl
  · rw [hrun]
    unfold pySortedSet
    have hd : (["A".toList, "A".toList, "B".toList, "B".toList] :
        List PyStr).dedup = ["A".toList, "B".toList] := by decide
    rw [hd]
    rw [List.mergeSort_of_sorted (by decide)]
    decide

/-- C6 (amended): with `0 ≤ overlap < chunkSize`, the chunker succeeds;
empty input yields no chunks; an input of at most `chunkSize - overlap`
words yields exactly one chunk containing all words; every chunk is a
non-empty window of the flattened input; every word index is covered by at
least one chunk; and the chunk word counts sum to the total word count plus
the once-counted consecutive overlaps. -/
theorem chunk_coverage (setList : List PyStr → List PyStr)
    (segments : List Seg) (cs ov : Int) (h0 : 0 ≤ ov) (hov : ov < cs) :
    ∃ chunks : List Chunk, chunk_transcript setList segments cs ov = .ok chunks ∧
      (segments = [] → chunks = []) ∧
      (flattenWords segments = [] → chunks = []) ∧
      (flattenWords segments ≠ [] →
        ((flattenWords segments).length : Int) ≤ cs - ov →
        chunks = [mkChunk setList (flattenWords segments) 0]) ∧
      (∀ c ∈ chunks,
        c.words = pySlice (flattenWords segments) c.lo
          (min (c.lo + cs) ((flattenWords segments).length : Int)) ∧
        c.words ≠ []) ∧
      (∀ j : Int, 0 ≤ j → j < ((flattenWords segments).length : Int) →
        ∃ c ∈ chunks, c.lo ≤ j ∧ j < c.lo + (c.words.length : Int)) ∧
      ((chunks.map (fun c => (c.words.length : Int))).sum =
        ((flattenWords segments).length : Int) + overlapsSum chunks) := by
  by_cases hseg : segments.isEmpty
  · have hsege : segments = [] := List.isEmpty_iff.mp hseg
    have hfe : flattenWords segments = [] := by
      rw [hsege]
      simp [flattenWords]
    refine ⟨[], by simp [chunk_transcript, hseg], fun _ => rfl, fun _ => rfl,
      fun hne _ => absurd hfe hne, by simp, ?_, ?_⟩
    · intro j hj0 hj
      rw [hfe] at hj
      simp only [List.length_nil, Int.natCast_zero] at hj
      omega
    · rw [hfe]
      simp [overlapsSum]
  · by_cases hwords : (flattenWords segments).isEmpty
    · have hwe : flattenWords segments = [] := List.isEmpty_iff.mp hwords
      refine ⟨[], by simp [chunk_transcript, hseg, hwords], fun _ => rfl,
        fun _ => rfl, fun hne _ => absurd hwe hne, by simp, ?_, ?_⟩
      · intro j hj0 hj
        rw [hwe] at hj
        simp only [List.length_nil, Int.natCast_zero] at hj
        omega
      · rw [hwe]
        simp [overlapsSum]
    · have hne : flattenWords segments ≠ [] := by
        simpa [List.isEmpty_iff] using hwords
      have hlenN : 0 < (flattenWords segments).length := List.length_pos.mpr hne
      have hlen0 : (0 : Int) < ((flattenWords segments).length : Int) := by
        omega
      obtain ⟨_, hchunks, hcover, hsum⟩ :=
        windowsFrom_spec setList (flattenWords segments) cs ov h0 hov 0
          le_rfl hlen0
      refine ⟨windowsFrom setList (flattenWords segments) cs ov hov 0, ?_,
        fun habs => absurd habs (by simpa [List.isEmpty_iff] using hseg),
        fun habs => absurd habs hne, ?_, ?_, ?_, ?_⟩
      · simp only [chunk_transcript, hseg, hwords, Bool.false_eq_true,
          if_false]
        rw [chunkLoop_eq_windowsFrom setList _ cs ov h0 hov _ 0 [] le_rfl
          (by omega)]
        simp
      · intro _ hsmall
        rw [windowsFrom, dif_pos hlen0, if_pos (by omega :
          (0 : Int) + (cs - ov) ≥ ((flattenWords segments).length : Int))]
        have hmin : min ((0 : Int) + cs) ((flattenWords segments).length : Int)
            = ((flattenWords segments).length : Int) := by
          omega
        rw [hmin]
        have hslice : pySlice (flattenWords segments) 0
            ((flattenWords segments).length : Int) = flattenWords segments := by
          obtain ⟨h1, _⟩ := pySlice_nonneg_spec (flattenWords segments) 0
            ((flattenWords segments).length : Int) le_rfl (by omega) le_rfl
          rw [h1]
          simp
        rw [hslice]
      · intro c hc
        obtain ⟨_, _, _, hform, hcwne, _⟩ := hchunks c hc
        refine ⟨?_, hcwne⟩
        conv_lhs => rw [hform]
        rfl
      · intro j hj0 hj
        exact hcover j hj0 hj
      · simpa using hsum

/-- Witness for `chunk_coverage` on the two-speaker example. -/
theorem chunk_coverage_witness :
    ∃ chunks : List Chunk, chunk_transcript pySet segsTwo 10 2 = .ok chunks ∧
      (segsTwo = [] → chunks = []) ∧
      (flattenWords segsTwo = [] → chunks = []) ∧
      (flattenWords segsTwo ≠ [] →
        ((flattenWords segsTwo).length : Int) ≤ 10 - 2 →
        chunks = [mkChunk pySet (flattenWords segsTwo) 0]) ∧
      (∀ c ∈ chunks,
        c.words = pySlice (flattenWords segsTwo) c.lo
          (min (c.lo + 10) ((flattenWords segsTwo).length : Int)) ∧
        c.words ≠ []) ∧
      (∀ j : Int, 0 ≤ j → j < ((flattenWords segsTwo).length : Int) →
        ∃ c ∈ chunks, c.lo ≤ j ∧ j < c.lo + (c.words.length : Int)) ∧
      ((chunks.map (fun c => (c.words.length : Int))).sum =
        ((flattenWords segsTwo).length : Int) + overlapsSum chunks) :=
  chunk_coverage pySet segsTwo 10 2 (by norm_num) (by norm_num)

/-- Evaluating the flattening of the four-word example. -/
theorem flatten_segsFour : flattenWords segsFour = wordsFour := by
  simp only [flattenWords, segsFour, List.mergeSort_singleton]
  rfl

/-- C6, counterexample to the claim as stated: a four-word input with
`chunkSize = 5 > overlap = 3` has fewer than `chunkSize` words yet yields
two chunks, not one (the two-word tail window `words[2:4]` is emitted as a
second chunk). -/
theorem chunk_single_chunk_counterexample :
    (flattenWords segsFour).length = 4 ∧ 4 < 5 ∧ (3 : Int) < 5 ∧
    (0 : Int) ≤ 3 ∧
    numChunks (chunk_transcript pySet segsFour 5 3) = 2 := by
  refine ⟨by rw [flatten_segsFour]; rfl, by norm_num, by norm_num,
    by norm_num, ?_⟩
  simp only [chunk_transcript, flatten_segsFour]
  rfl

/-- Evaluating the flattening of the two-word example. -/
theorem flatten_segsStuck : flattenWords segsStuck = wordsStuck := by
  simp only [flattenWords, segsStuck, List.mergeSort_singleton]
  rfl

/-- With `chunk_size = overlap = 2` the loop index never advances on the
two-word input, so no iteration budget ever completes the loop. -/
theorem chunkLoop_stuck : ∀ (fuel : Nat) (acc : List Chunk),
    chunkLoop pySet wordsStuck 2 2 fuel 0 acc = .fuelOut := by
  intro fuel
  induction fuel with
  | zero => intro acc; rfl
  | succ f ih =>
    intro acc
    rw [show chunkLoop pySet wordsStuck 2 2 (f + 1) 0 acc =
        chunkLoop pySet wordsStuck 2 2 f 0
          (acc ++ [mkChunk pySet wordsStuck 0]) from rfl]
    exact ih _

/-- C3: the chunking loop does not terminate when `chunkSize = overlap`:
on a two-word input with `chunk_size = overlap = 2`, the loop exhausts every
iteration budget (the window start `i` is incremented by
`chunk_size - overlap = 0` forever), so the Python `while` loop never
exits — there is no clamping and no caller error. -/
theorem chunk_transcript_nonterminating :
    (∀ (fuel : Nat) (acc : List Chunk),
      chunkLoop pySet (flattenWords segsStuck) 2 2 fuel 0 acc = .fuelOut) ∧
    chunk_transcript pySet segsStuck 2 2 = .fuelOut := by
  constructor
  · intro fuel acc
    rw [flatten_segsStuck]
    exact chunkLoop_stuck fuel acc
  · simp only [chunk_transcript, flatten_segsStuck]
    exact chunkLoop_stuck _ _

/-! ### Helper lemmas about `pyStrip` and `pySplitWs` -/

/-- `rtrimWs` of a cons is empty or keeps the head. -/
theorem rtrimWs_shape (c : Char) (cs : PyStr) :
    rtrimWs (c :: cs) = [] ∨ ∃ r, rtrimWs (c :: cs) = c :: r := by
  simp only [rtrimWs]
  by_cases h : rtrimWs cs = []
  · by_cases hc : isPySpace c
    · left; simp [h, hc]
    · right; exact ⟨[], by simp [h, hc]⟩
  · right; exact ⟨rtrimWs cs, by simp [h]⟩

/-- Trailing-whitespace removal is idempotent. -/
theorem rtrimWs_idem : ∀ l : PyStr, rtrimWs (rtrimWs l) = rtrimWs l := by
  intro l
  induction l with
  | nil => rfl
  | cons c cs ih =>
    simp only [rtrimWs]
    by_cases h : rtrimWs cs = []
    · by_cases hc : isPySpace c
      · simp [h, hc, rtrimWs]
      · simp [h, hc, rtrimWs]
    · simp only [if_neg h]
      simp only [rtrimWs]
      rw [ih]
      simp [h]

/-- A stripped string has no leading whitespace. -/
theorem dropWhile_pyStrip (l : PyStr) :
    (pyStrip l).dropWhile isPySpace = pyStrip l := by
  unfold pyStrip
  cases hd : l.dropWhile isPySpace with
  | nil => simp [rtrimWs]
  | cons c rest =>
    have hne : l.dropWhile isPySpace ≠ [] := by rw [hd]; simp
    have hc : isPySpace ((l.dropWhile isPySpace).head hne) = false :=
      List.head_dropWhile_not isPySpace l hne
    have hc' : isPySpace c = false := by
      simpa [hd] using hc
    rcases rtrimWs_shape c rest with h | ⟨r, h⟩
    · rw [h]; rfl
    · rw [h, List.dropWhile_cons, hc']
      simp

/-- Python `strip` is idempotent. -/
theorem pyStrip_idem (l : PyStr) : pyStrip (pyStrip l) = pyStrip l := by
  conv_lhs => rw [pyStrip]
  rw [dropWhile_pyStrip]
  exact rtrimWs_idem _

/-- `split()` of a non-empty string with no leading whitespace yields at
least one word. -/
theorem pySplitWs_ne_nil (t : PyStr) (h1 : t ≠ [])
    (h2 : t.dropWhile isPySpace = t) : pySplitWs t ≠ [] := by
  simp only [pySplitWs, pySplitWsGo]
  split
  · rename_i heq
    rw [h2] at heq
    exact absurd heq h1
  · simp

/-- The segment-keeping `filterMap` of the transcription loop is the filter
by non-blank stripped text. -/
theorem keptEqFilter (segs : List RawSeg) :
    segs.filterMap (fun sg => if pyStrip sg.text = [] then none else some sg) =
    segs.filter (fun sg => !((pyStrip sg.text).isEmpty)) := by
  induction segs with
  | nil => rfl
  | cons a t ih =>
    by_cases h : pyStrip a.text = [] <;>
      simp [List.filterMap_cons, List.filter_cons, h, ih, List.isEmpty_iff]

/-- C10: the transcription stage silently drops every returned segment whose
text strips to empty — no `TranscriptionSegment` row is created for it and
it is excluded from the in-memory list handed to merge/chunking — and every
persisted row and every in-memory segment has non-empty stripped text and a
word count of at least 1. -/
theorem transcribe_drops_blank (compoundOf : PyStr → ℚ) (speaker : PyStr)
    (segs : List RawSeg) :
    processTrackSegments compoundOf speaker segs =
      ((segs.filter (fun sg => !((pyStrip sg.text).isEmpty))).map
         (mkDbRow compoundOf speaker),
       (segs.filter (fun sg => !((pyStrip sg.text).isEmpty))).map
         (mkMemSeg compoundOf speaker)) ∧
    (∀ r ∈ (processTrackSegments compoundOf speaker segs).1,
      r.text ≠ [] ∧ pyStrip r.text = r.text ∧ 1 ≤ r.word_count) ∧
    (∀ m ∈ (processTrackSegments compoundOf speaker segs).2,
      m.text ≠ [] ∧ pyStrip m.text = m.text) := by
  refine ⟨?_, ?_, ?_⟩
  · unfold processTrackSegments
    rw [keptEqFilter]
  · intro r hr
    simp only [processTrackSegments, keptEqFilter, List.mem_map] at hr
    obtain ⟨sg, hsg, rfl⟩ := hr
    have hkeep : pyStrip sg.text ≠ [] := by
      have := (List.mem_filter.mp hsg).2
      simpa [List.isEmpty_iff] using this
    refine ⟨hkeep, pyStrip_idem sg.text, ?_⟩
    have hne := pySplitWs_ne_nil (pyStrip sg.text) hkeep (dropWhile_pyStrip sg.text)
    have := List.length_pos.mpr hne
    simpa [mkDbRow] using this
  · intro m hm
    simp only [processTrackSegments, keptEqFilter, List.mem_map] at hm
    obtain ⟨sg, hsg, rfl⟩ := hm
    have hkeep : pyStrip sg.text ≠ [] := by
      have := (List.mem_filter.mp hsg).2
      simpa [List.isEmpty_iff] using this
    exact ⟨hkeep, pyStrip_idem sg.text⟩

/-- Witness for `transcribe_drops_blank` at a concrete track: the blank
segment is dropped and the kept row has a positive word count. -/
theorem transcribe_drops_blank_witness :
    (mkDbRow (fun _ => 0) ['A'] ⟨" hi there ".toList, 0, 1⟩).text ≠ [] ∧
    pyStrip (mkDbRow (fun _ => 0) ['A'] ⟨" hi there ".toList, 0, 1⟩).text =
      (mkDbRow (fun _ => 0) ['A'] ⟨" hi there ".toList, 0, 1⟩).text ∧
    1 ≤ (mkDbRow (fun _ => 0) ['A'] ⟨" hi there ".toList, 0, 1⟩).word_count :=
  (transcribe_drops_blank (fun _ => 0) ['A'] segsBlank).2.1 _
    (by rw [show (processTrackSegments (fun _ => 0) ['A'] segsBlank).1 =
          [mkDbRow (fun _ => 0) ['A'] ⟨" hi there ".toList, 0, 1⟩] from rfl]
        exact List.mem_singleton.mpr rfl)

/-- C1: once the entry status update succeeds, every stage (transcribe,
merge, chunk+embed, summarise, extract tasks, deep sentiment, calendar
export) is attempted exactly once, in order, whatever subset of them
raises; exactly one terminal status update is attempted, after all stages;
if it succeeds the meeting is `completed` with `ended_at` stamped, and only
its own failure leaves the meeting in `processing`. -/
theorem pipeline_stage_isolation (env : PipelineEnv) (st : MeetingState)
    (h : env.initUpdateRes = .ok ()) :
    ∃ st' : MeetingState,
      process_meeting env st = .ok (st', pipelineTrace) ∧
      pipelineTrace.count StageTag.finalUpdate = 1 ∧
      pipelineTrace =
        [.initialUpdate, .transcribe, .mergeStep, .chunkEmbed, .summarise,
         .extractTasks, .deepSentiment, .calendarExport] ++
        [.finalUpdate, .cleanup] ∧
      (env.finalUpdateRes = .ok () →
        st' = ⟨.completed, true⟩) ∧
      (∀ e : Unit, env.finalUpdateRes = .error e →
        st' = ⟨.processing, st.endedAtStamped⟩) := by
  refine ⟨match env.finalUpdateRes with
          | .ok _ => ⟨.completed, true⟩
          | .error _ => ⟨.processing, st.endedAtStamped⟩, ?_, by decide, rfl,
          ?_, ?_⟩
  · unfold process_meeting
    rw [h]
    cases hf : env.finalUpdateRes with
    | ok u => rfl
    | error e => rfl
  · intro hf
    rw [hf]
  · intro e hf
    rw [hf]

/-- Witness for `pipeline_stage_isolation`: every stage raises, yet the run
ends with status `completed` and a stamped `ended_at`. -/
theorem pipeline_stage_isolation_witness :
    ∃ st' : MeetingState,
      process_meeting envFaulty ⟨.active, false⟩ = .ok (st', pipelineTrace) ∧
      pipelineTrace.count StageTag.finalUpdate = 1 ∧
      pipelineTrace =
        [.initialUpdate, .transcribe, .mergeStep, .chunkEmbed, .summarise,
         .extractTasks, .deepSentiment, .calendarExport] ++
        [.finalUpdate, .cleanup] ∧
      (envFaulty.finalUpdateRes = .ok () →
        st' = ⟨.completed, true⟩) ∧
      (∀ e : Unit, envFaulty.finalUpdateRes = .error e →
        st' = ⟨.processing, false⟩) :=
  pipeline_stage_isolation envFaulty ⟨.active, false⟩ rfl

end SpeakInsights
